import Mathlib

/-!
Verification of the silence-cut repository's audio analysis and export-script
generation against its natural-language specification.

The embedding translates `src/utils/audioAnalysis.ts` (detectSilence,
generateFfmpegScript and helpers), the `calculateFinalDuration` function of
the application component, and the `analyzeContent` collaborator into Lean.
Sample amplitudes, times and thresholds are modelled as exact rationals; the
JS engine computes with IEEE doubles, whose rounding is outside the scope of
this development.  The linear amplitude threshold `10^(thresholdDb/20)` of
the source is irrational in general, so `detectSilence` below receives the
square of the linear threshold (`threshSq`) and compares the mean square of
a window against it; for a nonnegative threshold this is equivalent to the
source's `rms < threshold` comparison, and the equivalence with the
real-valued RMS comparison is proved as a theorem.
-/

/-- One entry of the segment list returned by `detectSilence`.  Mirrors the
`AudioSegment` interface of `src/unnamed/part_000` (`end` is a Lean keyword,
so the field is called `stop`). -/
structure AudioSegment where
  start : ℚ
  stop : ℚ
  isSilent : Bool
deriving DecidableEq, Repr

/-- `const windowSize = Math.floor(sampleRate * 0.05)` of the source, in
exact arithmetic: natural division `sampleRate * 5 / 100` equals
`⌊sampleRate * 0.05⌋`. -/
def windowSize (sampleRate : ℕ) : ℕ :=
  sampleRate * 5 / 100

/-- The exclusive end index of the window starting at `i`:
`const end = Math.min(i + windowSize, samples)`. -/
def frameStop (samples w i : ℕ) : ℕ :=
  min (i + w) samples

/-- Sum of squared amplitudes over the window `[i, frameStop)`: the inner
`for (let j = i; j < end; j++) sum += rawData[j] * rawData[j]` loop. -/
def frameSumSq (samples : List ℚ) (w i : ℕ) : ℚ :=
  (((samples.drop i).take w).map (fun x => x * x)).sum

/-- `sum / (end - i)` of the source: mean square of the window starting at
`i` (the square of the window's RMS). -/
def frameMeanSq (samples : List ℚ) (w i : ℕ) : ℚ :=
  frameSumSq samples w i / ((frameStop samples.length w i - i : ℕ) : ℚ)

/-- `const isSilentFrame = rms < threshold` of the source, expressed on
squares: for `threshold ≥ 0`, `rms < threshold ↔ rms² < threshold²`, and
`rms² ` is the window's mean square.  `threshSq` is the square of the linear
amplitude threshold `10^(thresholdDb/20)`. -/
def frameSilent (samples : List ℚ) (threshSq : ℚ) (w i : ℕ) : Bool :=
  decide (frameMeanSq samples w i < threshSq)

/-- The mutable state of the window loop of `detectSilence`:
`isCurrentlySilent`, `segmentStart` and the `segments` accumulator. -/
structure LoopState where
  cur : Bool
  segStart : ℚ
  acc : List AudioSegment
deriving DecidableEq, Repr

/-- One iteration of the window loop of `detectSilence`: classify the window
at `i`, run the `i === 0` initialisation, and on a state change push the
finished segment and restart at `currentTime = i / sampleRate`. -/
def loopBody (samples : List ℚ) (sampleRate : ℕ) (threshSq : ℚ) (w i : ℕ)
    (st : LoopState) : LoopState :=
  let silentFrame := frameSilent samples threshSq w i
  let currentTime : ℚ := (i : ℚ) / (sampleRate : ℚ)
  let cur1 := if i = 0 then silentFrame else st.cur
  let segStart1 := if i = 0 then 0 else st.segStart
  if silentFrame ≠ cur1 then
    { cur := silentFrame
      segStart := currentTime
      acc := st.acc ++ [{ start := segStart1, stop := currentTime, isSilent := cur1 }] }
  else
    { cur := cur1, segStart := segStart1, acc := st.acc }

/-- The window loop `for (let i = 0; i < samples; i += windowSize)` of
`detectSilence`.  The loop of the source diverges when `windowSize = 0`
(the index never advances), so this total model adds `0 < w` to the guard;
`silenceLoopSteps` below is the literal step-counting model and the two are
proved to agree whenever `0 < w`. -/
def silenceLoop (samples : List ℚ) (sampleRate : ℕ) (threshSq : ℚ) (w i : ℕ)
    (st : LoopState) : LoopState :=
  if h : 0 < w ∧ i < samples.length then
    silenceLoop samples sampleRate threshSq w (i + w)
      (loopBody samples sampleRate threshSq w i st)
  else st
termination_by samples.length - i
decreasing_by omega

/-- Literal model of the window loop: `fuel` bounds the number of loop-guard
checks, and `none` means the loop did not exit within `fuel` checks.  The
body and the stride `i + w` are exactly those of the source, including the
divergent behaviour for `w = 0`. -/
def silenceLoopSteps (samples : List ℚ) (sampleRate : ℕ) (threshSq : ℚ) (w : ℕ) :
    ℕ → ℕ → LoopState → Option LoopState
  | 0, _, _ => none
  | fuel + 1, i, st =>
    if i < samples.length then
      silenceLoopSteps samples sampleRate threshSq w fuel (i + w)
        (loopBody samples sampleRate threshSq w i st)
    else some st

/-- The noise-gating step of the merge pass:
`if (seg.isSilent && (seg.end - seg.start) < minSilenceDuration) seg.isSilent = false`. -/
def gateSeg (minSilenceDuration : ℚ) (seg : AudioSegment) : AudioSegment :=
  if seg.isSilent = true ∧ seg.stop - seg.start < minSilenceDuration then
    { seg with isSilent := false }
  else seg

/-- The merge step of `detectSilence`, on the merged list kept in reverse
order (the head is the most recently pushed segment): when the last merged
segment has the same `isSilent` value its `end` is extended, otherwise the
segment is pushed. -/
def mergeStep (acc : List AudioSegment) (seg : AudioSegment) : List AudioSegment :=
  match acc with
  | prev :: rest =>
    if prev.isSilent = seg.isSilent then { prev with stop := seg.stop } :: rest
    else seg :: prev :: rest
  | [] => [seg]

/-- `detectSilence` of `src/utils/audioAnalysis.ts`: run the window loop,
push the final segment `{segmentStart, samples / sampleRate, isCurrentlySilent}`,
then gate short silences and merge equal neighbours.  `threshSq` is the
square of the linear amplitude threshold (see `frameSilent`). -/
def detectSilence (samples : List ℚ) (sampleRate : ℕ) (threshSq : ℚ)
    (minSilenceDuration : ℚ) : List AudioSegment :=
  let w := windowSize sampleRate
  let st := silenceLoop samples sampleRate threshSq w 0
    { cur := false, segStart := 0, acc := [] }
  let raw := st.acc ++
    [{ start := st.segStart
       stop := (samples.length : ℚ) / (sampleRate : ℚ)
       isSilent := st.cur }]
  (raw.foldl (fun acc s => mergeStep acc (gateSeg minSilenceDuration s)) []).reverse

/-- Window size as the specification words it: `round(sampleRate * 0.05)`
(the source uses `Math.floor`).  Kept only to compare against `windowSize`. -/
def windowSizeSpec (sampleRate : ℕ) : ℕ :=
  (round ((sampleRate : ℚ) * (5 / 100))).toNat

/-- `detectSilence` as the specification words it: identical to
`detectSilence` except that windows have `round(sampleRate * 0.05)` samples.
Kept only to compare against `detectSilence`. -/
def detectSilenceSpec (samples : List ℚ) (sampleRate : ℕ) (threshSq : ℚ)
    (minSilenceDuration : ℚ) : List AudioSegment :=
  let w := windowSizeSpec sampleRate
  let st := silenceLoop samples sampleRate threshSq w 0
    { cur := false, segStart := 0, acc := [] }
  let raw := st.acc ++
    [{ start := st.segStart
       stop := (samples.length : ℚ) / (sampleRate : ℚ)
       isSilent := st.cur }]
  (raw.foldl (fun acc s => mergeStep acc (gateSeg minSilenceDuration s)) []).reverse

/-- The segment list `l` tiles `[a, b]` without gaps or overlaps: the first
start is `a`, each segment's `end` is the next segment's `start`, and the
last `end` is `b` (for the empty list this degenerates to `a = b`). -/
def Chained : ℚ → ℚ → List AudioSegment → Prop
  | a, b, [] => a = b
  | a, b, s :: l => s.start = a ∧ Chained s.stop b l

/-- No two adjacent segments share the same `isSilent` value. -/
def Alternating (l : List AudioSegment) : Prop :=
  List.Chain' (fun s t => s.isSilent ≠ t.isSilent) l

/-- The filter predicate of `activeSegments` in `generateFfmpegScript`:
silent segments are dropped, and a segment is dropped as out of range only
under the strict comparisons `s.end < trimStart || s.start > trimEnd`. -/
def trimKeep (trimStart trimEnd : ℚ) (s : AudioSegment) : Bool :=
  if s.isSilent then false
  else if s.stop < trimStart ∨ trimEnd < s.start then false
  else true

/-- The map step of `activeSegments`: clamp a kept segment to the trim
range (`start = max(s.start, trimStart)`, `end = min(s.end, trimEnd)`). -/
def clampSeg (trimStart trimEnd : ℚ) (s : AudioSegment) : AudioSegment :=
  { start := max s.start trimStart, stop := min s.stop trimEnd, isSilent := false }

/-- `const activeSegments = segments.filter(...).map(...)` of
`generateFfmpegScript`. -/
def activeSegments (segments : List AudioSegment) (trimStart trimEnd : ℚ) :
    List AudioSegment :=
  (segments.filter (trimKeep trimStart trimEnd)).map (clampSeg trimStart trimEnd)

/-- The contribution of one segment to `calculateFinalDuration` of the
application component (`src/unnamed/part_001`): silent or fully
out-of-range segments contribute nothing, otherwise the segment is clamped
and contributes `end - start` when `end > start`. -/
def segContribution (tStart tEnd : ℚ) (s : AudioSegment) : ℚ :=
  if s.isSilent then 0
  else if s.stop < tStart ∨ tEnd < s.start then 0
  else
    let start := max s.start tStart
    let e := min s.stop tEnd
    if start < e then e - start else 0

/-- `calculateFinalDuration` of the application component: accumulate the
active clipped durations over the segment list. -/
def calculateFinalDuration (segs : List AudioSegment) (tStart tEnd : ℚ) : ℚ :=
  segs.foldl (fun dur s => dur + segContribution tStart tEnd s) 0

/-- The `ExportFormat` union of `src/unnamed/part_000`. -/
inductive ExportFormat
  | mp4 | mov | avi | mp3 | wav | aac
deriving DecidableEq, Repr

/-- The script dialect parameter `'win' | 'unix'`. -/
inductive Platform
  | win | unix
deriving DecidableEq, Repr

/-- The extension string of a format (`const ext = config.format`). -/
def formatExt : ExportFormat → String
  | .mp4 => "mp4"
  | .mov => "mov"
  | .avi => "avi"
  | .mp3 => "mp3"
  | .wav => "wav"
  | .aac => "aac"

/-- `const isAudioOnly = ['mp3', 'wav', 'aac'].includes(ext)`. -/
def isAudioOnlyFmt (f : ExportFormat) : Bool :=
  decide (f ∈ [ExportFormat.mp3, ExportFormat.wav, ExportFormat.aac])

/-- The codec selection of `generateFfmpegScript`: start from the defaults
`videoCodec = "libx264"`, `audioCodec = "aac"` and adjust for the formats
named in the `if` branches of the source.  There is no lookup table and no
error path: a format matched by no branch keeps the defaults. -/
def selectCodecs (f : ExportFormat) : String × String :=
  let videoCodec := "libx264"
  let audioCodec := "aac"
  if isAudioOnlyFmt f then
    let videoCodec := "null"
    let audioCodec :=
      if f = ExportFormat.mp3 then "libmp3lame"
      else if f = ExportFormat.wav then "pcm_s16le"
      else audioCodec
    (videoCodec, audioCodec)
  else
    let videoCodec :=
      if f = ExportFormat.avi then "mpeg4"
      else if f = ExportFormat.mov then "libx264"
      else videoCodec
    (videoCodec, audioCodec)

/-- Characters escaped by `escapeName` for the unix dialect: the regex
`/(["\\$`])/` (double quote, backslash, dollar, backquote). -/
def escapeUnixChar (c : Char) : Bool :=
  c == '"' || c == '\\' || c == '$' || c == Char.ofNat 96

/-- `escapeName` of the source: on unix each special character gets a
backslash prefix; on windows the name is returned unchanged. -/
def escapeName (name : String) (platform : Platform) : String :=
  match platform with
  | .unix =>
    String.mk (name.data.foldr
      (fun c acc => if escapeUnixChar c then '\\' :: c :: acc else c :: acc) [])
  | .win => name

/-- `filename.replace(/\s+/g, '_')`: each maximal run of whitespace becomes
one underscore.  The boolean argument records whether the previous character
was part of a whitespace run. -/
def squashWsAux : Bool → List Char → List Char
  | _, [] => []
  | prevWs, c :: cs =>
    if c.isWhitespace then
      (if prevWs then [] else ['_']) ++ squashWsAux true cs
    else c :: squashWsAux false cs

/-- `filename.replace(/\s+/g, '_')` on strings. -/
def squashWs (s : String) : String :=
  String.mk (squashWsAux false s.data)

/-- `.replace(/\.[^/.]+$/, "")`: strip a final extension - a dot followed by
at least one character, none of which is a dot or a slash. -/
def stripExt (s : String) : String :=
  let r := s.data.reverse
  let suffix := r.takeWhile (fun c => ¬(c = '.' ∨ c = '/'))
  match r.drop suffix.length with
  | '.' :: rest => if suffix.isEmpty then s else String.mk rest.reverse
  | _ => s

/-- `const safeName = filename.replace(/\s+/g, '_').replace(/\.[^/.]+$/, "")`. -/
def safeName (filename : String) : String :=
  stripExt (squashWs filename)

/-- `String(index).padStart(4, '0')`. -/
def padZero4 (n : ℕ) : String :=
  let s := toString n
  String.mk (List.replicate (4 - s.length) '0') ++ s

/-- `Number.toFixed(4)` on an exact rational: round to the nearest multiple
of `1/10000` and print with exactly four fractional digits. -/
def toFixed4 (q : ℚ) : String :=
  let scaled : ℤ := round (q * 10000)
  let sign := if scaled < 0 then "-" else ""
  let n := scaled.natAbs
  let fr := toString (n % 10000)
  sign ++ toString (n / 10000) ++ "." ++
    (String.mk (List.replicate (4 - fr.length) '0') ++ fr)

/-- The temporary segment filename written by the per-segment extract
command of either dialect:
``part_${String(index).padStart(4, '0')}.${isAudioOnly ? ext : 'mp4'}``. -/
def segFileName (audioOnly : Bool) (ext : String) (index : ℕ) : String :=
  "part_" ++ padZero4 index ++ "." ++ (if audioOnly then ext else "mp4")

/-- The filename listed in the concat manifest for segment `index`.  The
unix branch lists `segName` itself; the windows branch interpolates
`part_${...}.mp4` with a hard-coded `mp4` extension. -/
def manifestName (platform : Platform) (audioOnly : Bool) (ext : String)
    (index : ℕ) : String :=
  match platform with
  | .unix => segFileName audioOnly ext index
  | .win => "part_" ++ padZero4 index ++ ".mp4"

/-- One manifest line, `file '<name>'`, without the trailing newline. -/
def manifestEntryCore (platform : Platform) (audioOnly : Bool) (ext : String)
    (index : ℕ) : String :=
  "file '" ++ manifestName platform audioOnly ext index ++ "'"

/-- One per-segment extract command of `generateFfmpegScript`, for either
dialect (the dialects differ only in the segment directory separator and in
the input filename already passed in by the caller). -/
def extractCmd (platform : Platform) (inputName : String) (audioOnly : Bool)
    (videoCodec audioCodec ext : String) (index : ℕ) (seg : AudioSegment) :
    String :=
  let duration := toFixed4 (seg.stop - seg.start)
  let start := toFixed4 seg.start
  let segName := segFileName audioOnly ext index
  let cmdVideo :=
    if audioOnly then "-vn" else "-c:v " ++ videoCodec ++ " -preset ultrafast"
  let segmentDir := if platform = Platform.win then "segments\\" else "segments/"
  "ffmpeg -y -i \"" ++ inputName ++ "\" -ss " ++ start ++ " -t " ++ duration ++
    " " ++ cmdVideo ++ " -c:a " ++ audioCodec ++ " \"" ++ segmentDir ++ segName ++
    "\"\n"

/-- The export configuration record passed to `generateFfmpegScript`. -/
structure ScriptConfig where
  format : ExportFormat
  trimStart : ℚ
  trimEnd : ℚ
  bgMusicName : Option String
deriving Repr

/-- The concatenation (and optional background-music) block of the unix
script. -/
def concatBlockUnix (bgMusic : Option String) (bgMusicFilename : String)
    (audioOnly : Bool) (audioCodec ext outputName concatFile : String) : String :=
  match bgMusic with
  | some _ =>
    "ffmpeg -y -f concat -safe 0 -i " ++ concatFile ++
      " -c copy \"segments/temp_concat." ++ ext ++ "\"\n" ++
    "echo \"Adding background music (Main 100%, BG 20%)...\"\n" ++
    (if ¬audioOnly then
      "ffmpeg -y -i \"segments/temp_concat." ++ ext ++ "\" -i \"" ++
        bgMusicFilename ++
        "\" -filter_complex \"[0:a][1:a]amix=inputs=2:duration=first:weights=1 0.2[a]\" -map 0:v -map \"[a]\" -c:v copy -c:a " ++
        audioCodec ++ " \"" ++ outputName ++ "\"\n"
    else
      "ffmpeg -y -i \"segments/temp_concat." ++ ext ++ "\" -i \"" ++
        bgMusicFilename ++
        "\" -filter_complex \"amix=inputs=2:duration=first:weights=1 0.2\" -c:a " ++
        audioCodec ++ " \"" ++ outputName ++ "\"\n") ++
    "rm \"segments/temp_concat." ++ ext ++ "\"\n"
  | none =>
    "ffmpeg -y -f concat -safe 0 -i " ++ concatFile ++ " -c copy \"" ++
      outputName ++ "\"\n"

/-- The concatenation (and optional background-music) block of the windows
script. -/
def concatBlockWin (bgMusic : Option String) (audioOnly : Bool)
    (audioCodec ext outputName concatFile : String) : String :=
  match bgMusic with
  | some bgName =>
    "ffmpeg -y -f concat -safe 0 -i " ++ concatFile ++
      " -c copy \"segments\\temp_concat." ++ ext ++ "\"\n" ++
    "echo Adding background music (Main 100%%, BG 20%%)...\n" ++
    (if ¬audioOnly then
      "ffmpeg -y -i \"segments\\temp_concat." ++ ext ++ "\" -i \"" ++ bgName ++
        "\" -filter_complex \"[0:a][1:a]amix=inputs=2:duration=first:weights=1 0.2[a]\" -map 0:v -map \"[a]\" -c:v copy -c:a " ++
        audioCodec ++ " \"" ++ outputName ++ "\"\n"
    else
      "ffmpeg -y -i \"segments\\temp_concat." ++ ext ++ "\" -i \"" ++ bgName ++
        "\" -filter_complex \"amix=inputs=2:duration=first:weights=1 0.2\" -c:a " ++
        audioCodec ++ " \"" ++ outputName ++ "\"\n") ++
    "del \"segments\\temp_concat." ++ ext ++ "\"\n"
  | none =>
    "ffmpeg -y -f concat -safe 0 -i " ++ concatFile ++ " -c copy \"" ++
      outputName ++ "\"\n"

/-- `generateFfmpegScript` of `src/utils/audioAnalysis.ts`.  The source
accumulates the extract commands and the manifest in one `forEach` over
`activeSegments`; here the two accumulations are the two `String.join`s over
the indexed active list, in the same order. -/
def generateFfmpegScript (segments : List AudioSegment) (filename : String)
    (platform : Platform) (config : ScriptConfig) : String :=
  let active := activeSegments segments config.trimStart config.trimEnd
  let sName := safeName filename
  let inputFilename :=
    match platform with
    | .unix => escapeName filename .unix
    | .win => filename
  let bgMusicFilename :=
    match config.bgMusicName with
    | some n => (match platform with | .unix => escapeName n .unix | .win => n)
    | none => ""
  let ext := formatExt config.format
  let audioOnly := isAudioOnlyFmt config.format
  let outputName := sName ++ "_edited." ++ ext
  let codecs := selectCodecs config.format
  let videoCodec := codecs.1
  let audioCodec := codecs.2
  match platform with
  | .unix =>
    let concatFile := "segments/list.txt"
    let extracts := String.join (active.enum.map
      (fun p => extractCmd .unix inputFilename audioOnly videoCodec audioCodec ext p.1 p.2))
    let fileList := String.join (active.enum.map
      (fun p => manifestEntryCore .unix audioOnly ext p.1 ++ "\n"))
    "#!/bin/bash\n\n" ++
    "# Process " ++ filename ++ " to " ++ outputName ++ "\n" ++
    "mkdir -p segments\n" ++
    "echo \"Extracting valid segments...\"\n\n" ++
    extracts ++
    "\necho \"" ++ fileList ++ "\" > " ++ concatFile ++ "\n\n" ++
    "echo \"Concatenating...\"\n" ++
    concatBlockUnix config.bgMusicName bgMusicFilename audioOnly audioCodec ext
      outputName concatFile ++
    "\necho \"Done! Saved to " ++ outputName ++ "\"\n" ++
    "rm -rf segments\n"
  | .win =>
    let concatFile := "segments\\list.txt"
    let extracts := String.join (active.enum.map
      (fun p => extractCmd .win inputFilename audioOnly videoCodec audioCodec ext p.1 p.2))
    let echoLines := String.join (active.enum.map
      (fun p => "echo " ++ manifestEntryCore .win audioOnly ext p.1 ++ "\n"))
    "@echo off\n" ++
    "REM Process " ++ filename ++ " to " ++ outputName ++ "\n" ++
    "mkdir segments\n" ++
    "echo Extracting valid segments...\n\n" ++
    extracts ++
    "\n( \n" ++ echoLines ++ ") > " ++ concatFile ++ "\n\n" ++
    "echo Concatenating...\n" ++
    concatBlockWin config.bgMusicName audioOnly audioCodec ext outputName
      concatFile ++
    "echo Done! Saved to " ++ outputName ++ "\n" ++
    "rmdir /s /q segments\n" ++
    "pause\n"

/-- The `AiAnalysisResult` interface of `src/unnamed/part_000`
(`viralScore` is a JS number, modelled as a rational). -/
structure AiAnalysisResult where
  title : String
  summary : String
  tags : List String
  viralScore : ℚ
deriving DecidableEq, Repr

/-- The fixed placeholder returned by the `catch` branch of
`analyzeContent` in the AI collaborator (`src/unnamed/part_002`). -/
def fallbackResult : AiAnalysisResult :=
  { title := "Content Analysis Unavailable"
    summary := "Could not connect to Gemini AI. Ensure API Key is configured."
    tags := ["error", "offline"]
    viralScore := 0 }

/-- `analyzeContent` of the AI collaborator.  The effectful stages are
abstracted into explicit outcomes: `apiKey` is `process.env.API_KEY`
(`getGeminiClient` throws when absent), `requestOutcome` is the result of
the `generateContent` call, and `parseJson` is `JSON.parse` on the response
text (`none` models a parse exception).  Every failure is caught by the
single `try/catch` of the source and yields `fallbackResult`. -/
def analyzeContent (apiKey : Option String)
    (requestOutcome : Except String String)
    (parseJson : String → Option AiAnalysisResult) : AiAnalysisResult :=
  match apiKey with
  | none => fallbackResult
  | some _ =>
    match requestOutcome with
    | Except.error _ => fallbackResult
    | Except.ok text =>
      match parseJson text with
      | none => fallbackResult
      | some r => r

theorem chained_nil {a b : ℚ} : Chained a b [] ↔ a = b := Iff.rfl

theorem chained_cons {a b : ℚ} {s : AudioSegment} {l : List AudioSegment} :
    Chained a b (s :: l) ↔ s.start = a ∧ Chained s.stop b l := Iff.rfl

theorem chained_append {a b c : ℚ} {l₁ l₂ : List AudioSegment}
    (h1 : Chained a b l₁) (h2 : Chained b c l₂) : Chained a c (l₁ ++ l₂) := by
  induction l₁ generalizing a with
  | nil => simpa [Chained, h1.symm] using h2
  | cons s t ih =>
    obtain ⟨hs, ht⟩ := h1
    exact ⟨hs, ih ht⟩

theorem chained_append_last {a b : ℚ} {l : List AudioSegment} {s : AudioSegment} :
    Chained a b (l ++ [s]) ↔ Chained a s.start l ∧ s.stop = b := by
  induction l generalizing a with
  | nil => simp [Chained, and_comm, eq_comm]
  | cons t rest ih => simp [Chained, ih, and_assoc]

theorem alternating_reverse {l : List AudioSegment} (h : Alternating l) :
    Alternating l.reverse := by
  unfold Alternating at *
  rw [List.chain'_reverse]
  exact h.imp (fun _ _ hne => Ne.symm hne)

theorem alternating_cons_of_head_eq {p q : AudioSegment} {l : List AudioSegment}
    (h : Alternating (p :: l)) (he : q.isSilent = p.isSilent) :
    Alternating (q :: l) := by
  cases l with
  | nil => exact List.chain'_singleton q
  | cons r t =>
    rw [Alternating, List.chain'_cons] at h ⊢
    exact ⟨by rw [he]; exact h.1, h.2⟩

theorem gateSeg_start (m : ℚ) (s : AudioSegment) : (gateSeg m s).start = s.start := by
  unfold gateSeg; split <;> rfl

theorem gateSeg_stop (m : ℚ) (s : AudioSegment) : (gateSeg m s).stop = s.stop := by
  unfold gateSeg; split <;> rfl

theorem gateSeg_silent_min {m : ℚ} {s : AudioSegment}
    (h : (gateSeg m s).isSilent = true) :
    m ≤ (gateSeg m s).stop - (gateSeg m s).start := by
  unfold gateSeg at h ⊢
  split at h
  · simp at h
  · rename_i hcond
    rw [if_neg hcond]
    rw [not_and_or, not_lt] at hcond
    rcases hcond with hs | hle
    · exact absurd h hs
    · exact hle

theorem chained_map_gate {a b m : ℚ} {l : List AudioSegment}
    (h : Chained a b l) : Chained a b (l.map (gateSeg m)) := by
  induction l generalizing a with
  | nil => exact h
  | cons s t ih =>
    exact ⟨(gateSeg_start m s).trans h.1, by rw [gateSeg_stop]; exact ih h.2⟩

/-- Full invariant of the merge fold of `detectSilence`: starting from an
accumulator whose reverse tiles `[0, a]`, folding a list that tiles `[a, b]`
yields an accumulator whose reverse tiles `[0, b]`, is alternating, has only
nonnegative-length segments, and whose silent segments all have length at
least `m`. -/
theorem mergeStep_fold_inv (m : ℚ) :
    ∀ (l acc : List AudioSegment) (a b : ℚ),
      Chained 0 a acc.reverse → Chained a b l →
      (∀ s ∈ acc, s.start ≤ s.stop) → (∀ s ∈ l, s.start ≤ s.stop) →
      (∀ s ∈ acc, s.isSilent = true → m ≤ s.stop - s.start) →
      (∀ s ∈ l, s.isSilent = true → m ≤ s.stop - s.start) →
      Alternating acc →
      Chained 0 b (l.foldl mergeStep acc).reverse ∧
      Alternating (l.foldl mergeStep acc) ∧
      (∀ s ∈ l.foldl mergeStep acc, s.start ≤ s.stop) ∧
      (∀ s ∈ l.foldl mergeStep acc, s.isSilent = true → m ≤ s.stop - s.start) := by
  intro l
  induction l with
  | nil =>
    intro acc a b hacc hl hnn _ hmin _ halt
    rw [chained_nil] at hl
    exact ⟨hl ▸ hacc, halt, hnn, hmin⟩
  | cons s t ih =>
    intro acc a b hacc hl hnn hnl hmin hml halt
    obtain ⟨hsa, ht⟩ := hl
    have hsnn : s.start ≤ s.stop := hnl s (List.mem_cons_self s t)
    have hsmin : s.isSilent = true → m ≤ s.stop - s.start :=
      hml s (List.mem_cons_self s t)
    have hnl' : ∀ u ∈ t, u.start ≤ u.stop := fun u hu => hnl u (List.mem_cons_of_mem s hu)
    have hml' : ∀ u ∈ t, u.isSilent = true → m ≤ u.stop - u.start :=
      fun u hu => hml u (List.mem_cons_of_mem s hu)
    rw [List.foldl_cons]
    cases acc with
    | nil =>
      have ha0 : a = 0 := by simpa [Chained] using hacc.symm
      refine ih [s] s.stop b ?_ ht ?_ hnl' ?_ hml' (List.chain'_singleton s)
      · simp [Chained, hsa, ha0]
      · intro u hu; rw [List.mem_singleton] at hu; exact hu ▸ hsnn
      · intro u hu; rw [List.mem_singleton] at hu; exact hu ▸ hsmin
    | cons p rest =>
      have hacc' := hacc
      rw [List.reverse_cons, chained_append_last] at hacc'
      obtain ⟨hrest, hpstop⟩ := hacc'
      have hpnn : p.start ≤ p.stop := hnn p (List.mem_cons_self p rest)
      have hnn' : ∀ u ∈ rest, u.start ≤ u.stop := fun u hu => hnn u (List.mem_cons_of_mem p hu)
      have hmin' : ∀ u ∈ rest, u.isSilent = true → m ≤ u.stop - u.start :=
        fun u hu => hmin u (List.mem_cons_of_mem p hu)
      show _ ∧ _ ∧ _ ∧ _
      rw [mergeStep]
      by_cases heq : p.isSilent = s.isSilent
      · rw [if_pos heq]
        set p' : AudioSegment := { p with stop := s.stop } with hp'
        have hp'nn : p'.start ≤ p'.stop := by
          simp only [hp']
          calc p.start ≤ p.stop := hpnn
            _ = a := hpstop
            _ = s.start := hsa.symm
            _ ≤ s.stop := hsnn
        have hp'min : p'.isSilent = true → m ≤ p'.stop - p'.start := by
          intro hsil
          have h1 : m ≤ p.stop - p.start := hmin p (List.mem_cons_self p rest) hsil
          have h2 : 0 ≤ s.stop - s.start := sub_nonneg.mpr hsnn
          have : p.stop = s.start := hpstop.trans hsa.symm
          simp only [hp']
          have : p.stop ≤ s.stop := by rw [this]; exact hsnn
          calc m ≤ p.stop - p.start := h1
            _ ≤ s.stop - p.start := by linarith
        refine ih (p' :: rest) s.stop b ?_ ht ?_ hnl' ?_ hml' ?_
        · rw [List.reverse_cons, chained_append_last]
          exact ⟨hrest, rfl⟩
        · intro u hu
          rcases List.mem_cons.mp hu with h | h
          · exact h ▸ hp'nn
          · exact hnn' u h
        · intro u hu
          rcases List.mem_cons.mp hu with h | h
          · exact h ▸ hp'min
          · exact hmin' u h
        · exact alternating_cons_of_head_eq halt rfl
      · rw [if_neg heq]
        refine ih (s :: p :: rest) s.stop b ?_ ht ?_ hnl' ?_ hml' ?_
        · rw [List.reverse_cons, chained_append_last]
          refine ⟨?_, rfl⟩
          rw [List.reverse_cons, chained_append_last]
          exact ⟨hrest, hpstop.trans hsa.symm⟩
        · intro u hu
          rcases List.mem_cons.mp hu with h | h
          · exact h ▸ hsnn
          · exact hnn u h
        · intro u hu
          rcases List.mem_cons.mp hu with h | h
          · exact h ▸ hsmin
          · exact hmin u h
        · rw [Alternating, List.chain'_cons]
          exact ⟨fun hss => heq hss.symm, halt⟩

theorem silenceLoop_exit {samples : List ℚ} {sampleRate : ℕ} {threshSq : ℚ}
    {w i : ℕ} {st : LoopState} (h : ¬(0 < w ∧ i < samples.length)) :
    silenceLoop samples sampleRate threshSq w i st = st := by
  rw [silenceLoop, dif_neg h]

theorem silenceLoop_step {samples : List ℚ} {sampleRate : ℕ} {threshSq : ℚ}
    {w i : ℕ} {st : LoopState} (h : 0 < w ∧ i < samples.length) :
    silenceLoop samples sampleRate threshSq w i st =
      silenceLoop samples sampleRate threshSq w (i + w)
        (loopBody samples sampleRate threshSq w i st) := by
  rw [silenceLoop]; rw [dif_pos h]

/-- A run of the literal step-counting loop that exits agrees with the
total model `silenceLoop`. -/
theorem silenceLoop_of_steps {samples : List ℚ} {sampleRate : ℕ} {threshSq : ℚ}
    {w : ℕ} (hw : 0 < w) :
    ∀ {fuel i : ℕ} {st r : LoopState},
      silenceLoopSteps samples sampleRate threshSq w fuel i st = some r →
      silenceLoop samples sampleRate threshSq w i st = r := by
  intro fuel
  induction fuel with
  | zero => intro i st r h; simp [silenceLoopSteps] at h
  | succ fuel ih =>
    intro i st r h
    rw [silenceLoopSteps] at h
    by_cases hi : i < samples.length
    · rw [if_pos hi] at h
      rw [silenceLoop_step ⟨hw, hi⟩]
      exact ih h
    · rw [if_neg hi] at h
      rw [silenceLoop_exit (fun hc => hi hc.2)]
      exact Option.some_injective _ h

/-- With a positive stride the literal loop exits within
`samples.length - i + 1` guard checks, returning the `silenceLoop` result. -/
theorem silenceLoopSteps_terminates {samples : List ℚ} {sampleRate : ℕ}
    {threshSq : ℚ} {w : ℕ} (hw : 0 < w) :
    ∀ {fuel i : ℕ} {st : LoopState}, samples.length - i < fuel →
      silenceLoopSteps samples sampleRate threshSq w fuel i st =
        some (silenceLoop samples sampleRate threshSq w i st) := by
  intro fuel
  induction fuel with
  | zero => omega
  | succ fuel ih =>
    intro i st hfuel
    rw [silenceLoopSteps]
    by_cases hi : i < samples.length
    · rw [if_pos hi, silenceLoop_step ⟨hw, hi⟩]
      exact ih (by omega)
    · rw [if_neg hi, silenceLoop_exit (fun hc => hi hc.2)]

/-- With stride `0` the literal loop never exits on a nonempty buffer: the
index is stuck below `samples.length` forever. -/
theorem silenceLoopSteps_stuck {samples : List ℚ} {sampleRate : ℕ}
    {threshSq : ℚ} {i : ℕ} (hi : i < samples.length) :
    ∀ (fuel : ℕ) (st : LoopState),
      silenceLoopSteps samples sampleRate threshSq 0 fuel i st = none := by
  intro fuel
  induction fuel with
  | zero => intro st; rfl
  | succ fuel ih =>
    intro st
    rw [silenceLoopSteps, if_pos hi]
    exact ih _

/-- The body of an iteration with `i ≠ 0` leaves `cur` and `segStart`
untouched unless there is a state change; either way the invariant of
`silenceLoop_inv` is preserved. -/
theorem loopBody_ne_zero {samples : List ℚ} {sampleRate : ℕ} {threshSq : ℚ}
    {w i : ℕ} (st : LoopState) (hi : i ≠ 0) :
    loopBody samples sampleRate threshSq w i st =
      (if frameSilent samples threshSq w i ≠ st.cur then
        { cur := frameSilent samples threshSq w i
          segStart := (i : ℚ) / (sampleRate : ℚ)
          acc := st.acc ++
            [{ start := st.segStart
               stop := (i : ℚ) / (sampleRate : ℚ)
               isSilent := st.cur }] }
      else st) := by
  unfold loopBody
  simp only [if_neg hi]

/-- Invariant of the window loop from any state with index at least one:
the accumulated segments tile `[0, segStart]`, have nonnegative length, and
`segStart` never exceeds the already-scanned time `min i samples.length / sampleRate`. -/
theorem silenceLoop_inv {samples : List ℚ} {sampleRate : ℕ} {threshSq : ℚ}
    {w : ℕ} (hw : 0 < w) (hsr : 0 < sampleRate) :
    ∀ (fuel : ℕ) (i : ℕ) (st : LoopState), samples.length - i ≤ fuel → 1 ≤ i →
      Chained 0 st.segStart st.acc →
      (∀ s ∈ st.acc, s.start ≤ s.stop) →
      st.segStart ≤ ((min i samples.length : ℕ) : ℚ) / (sampleRate : ℚ) →
      Chained 0 (silenceLoop samples sampleRate threshSq w i st).segStart
        (silenceLoop samples sampleRate threshSq w i st).acc ∧
      (∀ s ∈ (silenceLoop samples sampleRate threshSq w i st).acc,
         s.start ≤ s.stop) ∧
      (silenceLoop samples sampleRate threshSq w i st).segStart ≤
        ((samples.length : ℕ) : ℚ) / (sampleRate : ℚ) := by
  intro fuel
  induction fuel with
  | zero =>
    intro i st hfuel hi hch hnn hbound
    have hni : ¬ i < samples.length := by omega
    rw [silenceLoop_exit (fun hc => hni hc.2)]
    refine ⟨hch, hnn, ?_⟩
    have : min i samples.length = samples.length := by omega
    rwa [this] at hbound
  | succ fuel ih =>
    intro i st hfuel hi hch hnn hbound
    by_cases hilt : i < samples.length
    · rw [silenceLoop_step ⟨hw, hilt⟩]
      rw [loopBody_ne_zero st (by omega)]
      have hmini : min i samples.length = i := by omega
      rw [hmini] at hbound
      split
      · -- state change: push the finished segment
        refine ih (i + w) _ (by omega) (by omega) ?_ ?_ ?_
        · exact chained_append hch ⟨rfl, rfl⟩
        · intro s hs
          rcases List.mem_append.mp hs with h | h
          · exact hnn s h
          · rw [List.mem_singleton] at h
            rw [h]
            exact hbound
        · have h1 : (i : ℚ) ≤ ((min (i + w) samples.length : ℕ) : ℚ) := by
            have : i ≤ min (i + w) samples.length := by omega
            exact_mod_cast this
          have h2 : (0 : ℚ) < (sampleRate : ℚ) := by exact_mod_cast hsr
          exact (div_le_div_iff_of_pos_right h2).mpr h1
      · -- no state change
        refine ih (i + w) _ (by omega) (by omega) hch hnn ?_
        calc st.segStart ≤ (i : ℚ) / (sampleRate : ℚ) := hbound
          _ ≤ ((min (i + w) samples.length : ℕ) : ℚ) / (sampleRate : ℚ) := by
            have h1 : (i : ℚ) ≤ ((min (i + w) samples.length : ℕ) : ℚ) := by
              have : i ≤ min (i + w) samples.length := by omega
              exact_mod_cast this
            have h2 : (0 : ℚ) < (sampleRate : ℚ) := by exact_mod_cast hsr
            exact (div_le_div_iff_of_pos_right h2).mpr h1
    · rw [silenceLoop_exit (fun hc => hilt hc.2)]
      refine ⟨hch, hnn, ?_⟩
      have : min i samples.length = samples.length := by omega
      rwa [this] at hbound

theorem frameSumSq_nonneg (samples : List ℚ) (w i : ℕ) :
    0 ≤ frameSumSq samples w i := by
  apply List.sum_nonneg
  intro x hx
  obtain ⟨y, _, rfl⟩ := List.mem_map.mp hx
  exact mul_self_nonneg y

theorem frameMeanSq_nonneg (samples : List ℚ) (w i : ℕ) :
    0 ≤ frameMeanSq samples w i :=
  div_nonneg (frameSumSq_nonneg samples w i) (Nat.cast_nonneg _)

/-- For a nonnegative linear threshold, comparing a window's mean square
against the squared threshold is the source's `rms < threshold`
comparison: the RMS is the real square root of the mean square. -/
theorem meanSq_lt_iff_rms_lt {x thr : ℚ} (hx : 0 ≤ x) (hthr : 0 ≤ thr) :
    x < thr * thr ↔ Real.sqrt (x : ℝ) < (thr : ℝ) := by
  rcases eq_or_lt_of_le hthr with h0 | hpos
  · constructor
    · intro h
      exfalso
      rw [← h0, mul_zero] at h
      exact absurd h (not_lt.mpr hx)
    · intro h
      exfalso
      rw [← h0] at h
      push_cast at h
      exact absurd h (not_lt.mpr (Real.sqrt_nonneg _))
  · rw [Real.sqrt_lt' (by exact_mod_cast hpos)]
    rw [show ((thr : ℝ)) ^ 2 = ((thr * thr : ℚ) : ℝ) by push_cast; ring]
    exact_mod_cast Iff.rfl

theorem loopBody_zero (samples : List ℚ) (sampleRate : ℕ) (threshSq : ℚ) (w : ℕ) :
    loopBody samples sampleRate threshSq w 0 { cur := false, segStart := 0, acc := [] } =
      { cur := frameSilent samples threshSq w 0, segStart := 0, acc := [] } := by
  unfold loopBody
  simp

/-- The state reached by the window loop of `detectSilence` from its start:
the accumulator tiles `[0, segStart]`, all pushed segments have nonnegative
length, and `segStart` is at most the total duration. -/
theorem silenceLoop_from_start {samples : List ℚ} {sampleRate : ℕ}
    {threshSq : ℚ} {w : ℕ} (hw : 0 < w) (hsr : 0 < sampleRate) :
    Chained 0
      (silenceLoop samples sampleRate threshSq w 0
        { cur := false, segStart := 0, acc := [] }).segStart
      (silenceLoop samples sampleRate threshSq w 0
        { cur := false, segStart := 0, acc := [] }).acc ∧
    (∀ s ∈ (silenceLoop samples sampleRate threshSq w 0
        { cur := false, segStart := 0, acc := [] }).acc, s.start ≤ s.stop) ∧
    (silenceLoop samples sampleRate threshSq w 0
        { cur := false, segStart := 0, acc := [] }).segStart ≤
      (samples.length : ℚ) / (sampleRate : ℚ) := by
  by_cases hn : 0 < samples.length
  · rw [silenceLoop_step ⟨hw, hn⟩, loopBody_zero, zero_add]
    have h := @silenceLoop_inv samples sampleRate threshSq w hw hsr samples.length w
      { cur := frameSilent samples threshSq w 0, segStart := 0, acc := [] }
      (by omega) hw (by rfl) (by simp) ?_
    · exact ⟨h.1, h.2.1, by exact_mod_cast h.2.2⟩
    · exact div_nonneg (by positivity) (by positivity)
  · rw [silenceLoop_exit (fun hc => hn hc.2)]
    refine ⟨rfl, by simp, ?_⟩
    exact div_nonneg (by positivity) (by positivity)

/-- Claim C1: for every sample buffer, the canonical segment list returned
by `detectSilence` (gate-and-merge pass included) partitions
`[0, sampleCount / sampleRate)` with zero gaps and zero overlaps — each
segment's `end` equals the next segment's `start`, the first `start` is `0`,
the last `end` is `sampleCount / sampleRate` — no two adjacent segments have
the same `isSilent` value, and every silent segment has length at least
`minSilenceDuration`.  The hypothesis `20 ≤ sampleRate` is exactly the
condition under which the window loop of the source terminates (see C9). -/
theorem detectSilence_canonical_partition (samples : List ℚ) (sampleRate : ℕ)
    (threshSq minSilenceDuration : ℚ) (hsr : 20 ≤ sampleRate) :
    Chained 0 ((samples.length : ℚ) / (sampleRate : ℚ))
      (detectSilence samples sampleRate threshSq minSilenceDuration) ∧
    Alternating (detectSilence samples sampleRate threshSq minSilenceDuration) ∧
    (∀ s ∈ detectSilence samples sampleRate threshSq minSilenceDuration,
       s.isSilent = true → minSilenceDuration ≤ s.stop - s.start) := by
  have hw : 0 < windowSize sampleRate := by unfold windowSize; omega
  have hsr0 : 0 < sampleRate := by omega
  obtain ⟨hch, hnn, hbound⟩ :=
    @silenceLoop_from_start samples sampleRate threshSq (windowSize sampleRate) hw hsr0
  set st := silenceLoop samples sampleRate threshSq (windowSize sampleRate) 0
    { cur := false, segStart := 0, acc := [] } with hst
  set fin : AudioSegment :=
    { start := st.segStart
      stop := (samples.length : ℚ) / (sampleRate : ℚ)
      isSilent := st.cur } with hfin
  set raw := st.acc ++ [fin] with hraw
  have hrawch : Chained 0 ((samples.length : ℚ) / (sampleRate : ℚ)) raw :=
    chained_append hch ⟨rfl, rfl⟩
  have hrawnn : ∀ s ∈ raw, s.start ≤ s.stop := by
    intro s hs
    rcases List.mem_append.mp hs with h | h
    · exact hnn s h
    · rw [List.mem_singleton] at h
      rw [h]
      exact hbound
  have hds : detectSilence samples sampleRate threshSq minSilenceDuration =
      (raw.foldl (fun acc s => mergeStep acc (gateSeg minSilenceDuration s)) []).reverse :=
    rfl
  have hfold : raw.foldl (fun acc s => mergeStep acc (gateSeg minSilenceDuration s)) [] =
      (raw.map (gateSeg minSilenceDuration)).foldl mergeStep [] :=
    (List.foldl_map _ _ _ _).symm
  have hgch : Chained 0 ((samples.length : ℚ) / (sampleRate : ℚ))
      (raw.map (gateSeg minSilenceDuration)) := chained_map_gate hrawch
  have hgnn : ∀ s ∈ raw.map (gateSeg minSilenceDuration), s.start ≤ s.stop := by
    intro s hs
    obtain ⟨t, ht, rfl⟩ := List.mem_map.mp hs
    rw [gateSeg_start, gateSeg_stop]
    exact hrawnn t ht
  have hgmin : ∀ s ∈ raw.map (gateSeg minSilenceDuration),
      s.isSilent = true → minSilenceDuration ≤ s.stop - s.start := by
    intro s hs hsil
    obtain ⟨t, _, rfl⟩ := List.mem_map.mp hs
    exact gateSeg_silent_min hsil
  obtain ⟨hc, ha, _, hm⟩ := mergeStep_fold_inv minSilenceDuration
    (raw.map (gateSeg minSilenceDuration)) [] 0
    ((samples.length : ℚ) / (sampleRate : ℚ)) rfl hgch (by simp) hgnn (by simp)
    hgmin List.chain'_nil
  rw [hds, hfold]
  refine ⟨hc, alternating_reverse ha, ?_⟩
  intro s hs hsil
  exact hm s (List.mem_reverse.mp hs) hsil

/-- Witness for C1 at a concrete input. -/
theorem detectSilence_canonical_partition_witness :
    (20 : ℕ) ≤ 44100 ∧
    (Chained 0 ((List.length ([] : List ℚ) : ℚ) / ((44100 : ℕ) : ℚ))
      (detectSilence [] 44100 0 0) ∧
    Alternating (detectSilence [] 44100 0 0) ∧
    (∀ s ∈ detectSilence [] 44100 0 0,
       s.isSilent = true → (0 : ℚ) ≤ s.stop - s.start)) :=
  ⟨by norm_num, detectSilence_canonical_partition [] 44100 0 0 (by norm_num)⟩

/-- Claim C9: the window loop advances by `⌊sampleRate * 0.05⌋` samples per
iteration, so it terminates (here: the literal step-counting model exits,
agreeing with the total model) for every buffer precisely when
`⌊sampleRate * 0.05⌋ ≥ 1`, i.e. `sampleRate ≥ 20`; below that the stride is
`0` and the loop never exits on any nonempty buffer. -/
theorem silenceLoop_terminates_iff_sampleRate (samples : List ℚ)
    (sampleRate : ℕ) (threshSq : ℚ) :
    (1 ≤ windowSize sampleRate ↔ 20 ≤ sampleRate) ∧
    (20 ≤ sampleRate →
      silenceLoopSteps samples sampleRate threshSq (windowSize sampleRate)
          (samples.length + 1) 0 { cur := false, segStart := 0, acc := [] } =
        some (silenceLoop samples sampleRate threshSq (windowSize sampleRate) 0
          { cur := false, segStart := 0, acc := [] })) ∧
    (sampleRate < 20 → 0 < samples.length → ∀ fuel : ℕ,
      silenceLoopSteps samples sampleRate threshSq (windowSize sampleRate)
          fuel 0 { cur := false, segStart := 0, acc := [] } = none) := by
  have h1 : 1 ≤ windowSize sampleRate ↔ 20 ≤ sampleRate := by
    unfold windowSize
    omega
  refine ⟨h1, ?_, ?_⟩
  · intro h
    exact silenceLoopSteps_terminates (h1.mpr h) (by omega)
  · intro h hn fuel
    have hz : windowSize sampleRate = 0 := by unfold windowSize; omega
    rw [hz]
    exact silenceLoopSteps_stuck hn fuel _

/-- Witness for C9 at a concrete input. -/
theorem silenceLoop_terminates_iff_sampleRate_witness :
    (20 : ℕ) ≤ 44100 ∧
    silenceLoopSteps [(0 : ℚ)] 44100 0 (windowSize 44100)
        (List.length [(0 : ℚ)] + 1) 0 { cur := false, segStart := 0, acc := [] } =
      some (silenceLoop [(0 : ℚ)] 44100 0 (windowSize 44100) 0
        { cur := false, segStart := 0, acc := [] }) :=
  ⟨by norm_num,
   (silenceLoop_terminates_iff_sampleRate [(0 : ℚ)] 44100 0).2.1 (by norm_num)⟩

/-- On an empty buffer the window loop never runs and `detectSilence`
returns the single zero-length non-silent segment `[0, 0)` produced by the
unconditional final push. -/
theorem detectSilence_nil (sampleRate : ℕ) (threshSq minSilenceDuration : ℚ) :
    detectSilence [] sampleRate threshSq minSilenceDuration =
      [{ start := 0, stop := 0, isSilent := false }] := by
  have hloop : silenceLoop [] sampleRate threshSq (windowSize sampleRate) 0
      { cur := false, segStart := 0, acc := [] } =
      { cur := false, segStart := 0, acc := [] } :=
    silenceLoop_exit (by simp)
  simp [detectSilence, hloop, gateSeg, mergeStep]

/-- Counterexample to claim C3 as stated: on the empty buffer
`detectSilence` does not return the empty segment list. -/
theorem detectSilence_empty_buffer_counterexample :
    detectSilence [] 44100 (1 / 100) (1 / 2) ≠ [] := by
  rw [detectSilence_nil]
  simp

/-- Claim C3 (amended): on an empty sample buffer (`sampleCount = 0`)
`detectSilence` returns the one-element list holding the degenerate
non-silent segment `[0, 0)` — not the empty list the specification
describes. -/
theorem detectSilence_empty_buffer (sampleRate : ℕ)
    (threshSq minSilenceDuration : ℚ) :
    detectSilence [] sampleRate threshSq minSilenceDuration =
      [{ start := 0, stop := 0, isSilent := false }] :=
  detectSilence_nil sampleRate threshSq minSilenceDuration

/-- Counterexample to claim C2 as stated: at `sampleRate = 30` the source
windowing `⌊30 * 0.05⌋ = 1` differs from the claimed `round(30 * 0.05) = 2`,
and `detectSilence` observably uses the floor-sized windows: it reports a
segment boundary at `1/30` (sample index 1), impossible with two-sample
windows. -/
theorem detectSilence_round_window_counterexample :
    windowSize 30 = 1 ∧ windowSizeSpec 30 = 2 ∧
    detectSilence [1, 0] 30 (1 / 4) 0 =
      [{ start := 0, stop := 1 / 30, isSilent := false },
       { start := 1 / 30, stop := 1 / 15, isSilent := true }] ∧
    detectSilence [1, 0] 30 (1 / 4) 0 ≠ detectSilenceSpec [1, 0] 30 (1 / 4) 0 := by
  have hL : detectSilence [1, 0] 30 (1 / 4) 0 =
      [{ start := 0, stop := 1 / 30, isSilent := false },
       { start := 1 / 30, stop := 1 / 15, isSilent := true }] := by
    have e1 : silenceLoopSteps [1, 0] 30 (1 / 4) 1 3 0
        { cur := false, segStart := 0, acc := [] } =
        some { cur := true, segStart := 1 / 30,
               acc := [{ start := 0, stop := 1 / 30, isSilent := false }] } := by
      simp only [silenceLoopSteps, loopBody]
      norm_num [frameSilent, frameMeanSq, frameSumSq, frameStop]
    have h1 := silenceLoop_of_steps one_pos e1
    have hw : windowSize 30 = 1 := rfl
    simp only [detectSilence, hw]
    rw [h1]
    norm_num [gateSeg, mergeStep]
  have hR : detectSilenceSpec [1, 0] 30 (1 / 4) 0 =
      [{ start := 0, stop := 1 / 15, isSilent := false }] := by
    have e2 : silenceLoopSteps [1, 0] 30 (1 / 4) 2 2 0
        { cur := false, segStart := 0, acc := [] } =
        some { cur := false, segStart := 0, acc := [] } := by
      simp only [silenceLoopSteps, loopBody]
      norm_num [frameSilent, frameMeanSq, frameSumSq, frameStop]
    have h2 := silenceLoop_of_steps (by norm_num) e2
    have hw : windowSizeSpec 30 = 2 := by
      norm_num [windowSizeSpec, round_eq]
      decide
    simp only [detectSilenceSpec, hw]
    rw [h2]
    norm_num [gateSeg, mergeStep]
  refine ⟨rfl, ?_, hL, ?_⟩
  · norm_num [windowSizeSpec, round_eq]
    decide
  · rw [hL, hR]
    intro h
    simpa using congrArg List.length h

/-- Claim C2 (amended): `detectSilence` partitions the sample buffer into
consecutive windows of exactly `⌊sampleRate * 0.05⌋` samples — `floor`, not
the `round` of the specification — with only the ragged final window
shorter, and a window is classified silent iff its RMS energy (the real
square root of its mean square) is strictly below the linear amplitude
threshold (the source computes that threshold as `10^(thresholdDb/20)`;
here it enters as the rational `thr` whose square is the `threshSq`
parameter of `detectSilence`). -/
theorem detectSilence_floor_windows_rms (samples : List ℚ) (sampleRate : ℕ)
    (thr : ℚ) (hthr : 0 ≤ thr) :
    windowSize sampleRate = Nat.floor ((sampleRate : ℚ) * (5 / 100)) ∧
    (∀ k : ℕ, (k + 1) * windowSize sampleRate ≤ samples.length →
      frameStop samples.length (windowSize sampleRate) (k * windowSize sampleRate) -
        k * windowSize sampleRate = windowSize sampleRate) ∧
    (∀ k : ℕ, k * windowSize sampleRate < samples.length →
      samples.length < (k + 1) * windowSize sampleRate →
      frameStop samples.length (windowSize sampleRate) (k * windowSize sampleRate) =
        samples.length) ∧
    (∀ i : ℕ, frameSilent samples (thr * thr) (windowSize sampleRate) i = true ↔
      Real.sqrt ((frameMeanSq samples (windowSize sampleRate) i : ℚ) : ℝ) <
        (thr : ℝ)) := by
  refine ⟨?_, ?_, ?_, ?_⟩
  · have hcast : ((sampleRate : ℚ) * (5 / 100)) =
        ((sampleRate * 5 : ℕ) : ℚ) / ((100 : ℕ) : ℚ) := by
      push_cast
      ring
    rw [hcast, Nat.floor_div_nat, Nat.floor_natCast]
    rfl
  · intro k hk
    rw [show (k + 1) * windowSize sampleRate =
        k * windowSize sampleRate + windowSize sampleRate from by ring] at hk
    unfold frameStop
    omega
  · intro k hk1 hk2
    rw [show (k + 1) * windowSize sampleRate =
        k * windowSize sampleRate + windowSize sampleRate from by ring] at hk2
    unfold frameStop
    omega
  · intro i
    unfold frameSilent
    rw [decide_eq_true_iff]
    exact meanSq_lt_iff_rms_lt (frameMeanSq_nonneg samples (windowSize sampleRate) i) hthr

/-- Witness for C2 (amended) at a concrete input. -/
theorem detectSilence_floor_windows_rms_witness :
    (0 : ℚ) ≤ 1 / 2 ∧
    (windowSize 30 = Nat.floor ((30 : ℚ) * (5 / 100)) ∧
    (∀ k : ℕ, (k + 1) * windowSize 30 ≤ List.length [(1 : ℚ), 0] →
      frameStop (List.length [(1 : ℚ), 0]) (windowSize 30) (k * windowSize 30) -
        k * windowSize 30 = windowSize 30) ∧
    (∀ k : ℕ, k * windowSize 30 < List.length [(1 : ℚ), 0] →
      List.length [(1 : ℚ), 0] < (k + 1) * windowSize 30 →
      frameStop (List.length [(1 : ℚ), 0]) (windowSize 30) (k * windowSize 30) =
        List.length [(1 : ℚ), 0]) ∧
    (∀ i : ℕ, frameSilent [(1 : ℚ), 0] (1 / 2 * (1 / 2)) (windowSize 30) i = true ↔
      Real.sqrt ((frameMeanSq [(1 : ℚ), 0] (windowSize 30) i : ℚ) : ℝ) <
        ((1 / 2 : ℚ) : ℝ))) :=
  ⟨by norm_num, detectSilence_floor_windows_rms [(1 : ℚ), 0] 30 (1 / 2) (by norm_num)⟩

theorem foldl_add_contribution (tS tE : ℚ) (segs : List AudioSegment) :
    ∀ a : ℚ, segs.foldl (fun dur s => dur + segContribution tS tE s) a =
      a + (segs.map (segContribution tS tE)).sum := by
  induction segs with
  | nil => intro a; simp
  | cons s t ih =>
    intro a
    rw [List.foldl_cons, ih, List.map_cons, List.sum_cons]
    ring

theorem calculateFinalDuration_eq_sum (segs : List AudioSegment) (tS tE : ℚ) :
    calculateFinalDuration segs tS tE = (segs.map (segContribution tS tE)).sum := by
  unfold calculateFinalDuration
  rw [foldl_add_contribution, zero_add]

/-- A segment's contribution to the final duration in closed form: silent
segments contribute nothing, and all the out-of-range and clamping cases
collapse to `max 0 (min(end, tEnd) - max(start, tStart))`. -/
theorem segContribution_eq (tS tE : ℚ) (s : AudioSegment) :
    segContribution tS tE s =
      if s.isSilent then 0 else max 0 (min s.stop tE - max s.start tS) := by
  unfold segContribution
  by_cases hsil : s.isSilent
  · simp [hsil]
  · simp only [hsil, Bool.false_eq_true, if_false]
    by_cases hout : s.stop < tS ∨ tE < s.start
    · rw [if_pos hout]
      rcases hout with h | h
      · have hle : min s.stop tE - max s.start tS ≤ 0 := by
          have h1 : min s.stop tE ≤ s.stop := min_le_left _ _
          have h2 : tS ≤ max s.start tS := le_max_right _ _
          linarith
        rw [max_eq_left hle]
      · have hle : min s.stop tE - max s.start tS ≤ 0 := by
          have h1 : min s.stop tE ≤ tE := min_le_right _ _
          have h2 : s.start ≤ max s.start tS := le_max_left _ _
          linarith
        rw [max_eq_left hle]
    · rw [if_neg hout]
      by_cases hlt : max s.start tS < min s.stop tE
      · rw [if_pos hlt]
        exact (max_eq_right (by linarith)).symm
      · rw [if_neg hlt]
        exact (max_eq_left (by linarith [not_lt.mp hlt])).symm

theorem segContribution_mono {tS tE tS' tE' : ℚ} (h1 : tS' ≤ tS) (h2 : tE ≤ tE')
    (s : AudioSegment) : segContribution tS tE s ≤ segContribution tS' tE' s := by
  rw [segContribution_eq, segContribution_eq]
  by_cases hsil : s.isSilent
  · simp [hsil]
  · simp only [hsil, Bool.false_eq_true, if_false]
    apply max_le_max le_rfl
    have hmin : min s.stop tE ≤ min s.stop tE' := min_le_min le_rfl h2
    have hmax : max s.start tS' ≤ max s.start tS := max_le_max le_rfl h1
    linarith

/-- Claim C7: for a fixed segment list, `calculateFinalDuration` is
monotone non-decreasing as the trim range widens. -/
theorem calculateFinalDuration_monotone (segs : List AudioSegment)
    (tS tE tS' tE' : ℚ) (h1 : tS' ≤ tS) (h2 : tE ≤ tE') :
    calculateFinalDuration segs tS tE ≤ calculateFinalDuration segs tS' tE' := by
  rw [calculateFinalDuration_eq_sum, calculateFinalDuration_eq_sum]
  apply List.sum_le_sum
  intro s _
  exact segContribution_mono h1 h2 s

/-- Witness for C7 at a concrete input. -/
theorem calculateFinalDuration_monotone_witness :
    (1 : ℚ) ≤ 2 ∧ (8 : ℚ) ≤ 9 ∧
    calculateFinalDuration [{ start := 0, stop := 10, isSilent := false }] 2 8 ≤
      calculateFinalDuration [{ start := 0, stop := 10, isSilent := false }] 1 9 :=
  ⟨by norm_num, by norm_num,
   calculateFinalDuration_monotone [{ start := 0, stop := 10, isSilent := false }]
     2 8 1 9 (by norm_num) (by norm_num)⟩

/-- Counterexample to claim C4 as stated: with `trimEnd = trimStart = 5` and
the single active segment `[0, 10)`, the trim filter of
`generateFfmpegScript` keeps the segment (clamped to the zero-length
`[5, 5)`), so the active list is not empty. -/
theorem trim_degenerate_counterexample :
    ((5 : ℚ) ≤ 5) ∧
    activeSegments [{ start := 0, stop := 10, isSilent := false }] 5 5 =
      [{ start := 5, stop := 5, isSilent := false }] ∧
    activeSegments [{ start := 0, stop := 10, isSilent := false }] 5 5 ≠ [] := by
  have h : activeSegments [{ start := 0, stop := 10, isSilent := false }] 5 5 =
      [{ start := 5, stop := 5, isSilent := false }] := by
    norm_num [activeSegments, trimKeep, clampSeg, List.filter]
  exact ⟨le_refl _, h, by rw [h]; simp⟩

/-- Claim C4 (amended): when `trimEnd ≤ trimStart` the computed final
duration is `0`, and although the active-segment list of
`generateFfmpegScript` need not be empty (see the counterexample), every
segment in it is clamped to a zero-or-negative-length range. -/
theorem trim_degenerate_duration_zero (segs : List AudioSegment) (tS tE : ℚ)
    (h : tE ≤ tS) :
    calculateFinalDuration segs tS tE = 0 ∧
    ∀ s ∈ activeSegments segs tS tE, s.stop ≤ s.start := by
  constructor
  · rw [calculateFinalDuration_eq_sum]
    apply List.sum_eq_zero
    intro x hx
    obtain ⟨s, _, rfl⟩ := List.mem_map.mp hx
    rw [segContribution_eq]
    by_cases hsil : s.isSilent
    · rw [if_pos hsil]
    · rw [if_neg hsil]
      apply max_eq_left
      have h1 : min s.stop tE ≤ tE := min_le_right _ _
      have h2 : tS ≤ max s.start tS := le_max_right _ _
      linarith
  · intro s hs
    obtain ⟨t, _, rfl⟩ := List.mem_map.mp hs
    show min t.stop tE ≤ max t.start tS
    calc min t.stop tE ≤ tE := min_le_right _ _
      _ ≤ tS := h
      _ ≤ max t.start tS := le_max_right _ _

/-- Witness for C4 (amended) at a concrete input. -/
theorem trim_degenerate_duration_zero_witness :
    ((5 : ℚ) ≤ 5) ∧
    (calculateFinalDuration [{ start := 0, stop := 10, isSilent := false }] 5 5 = 0 ∧
     ∀ s ∈ activeSegments [{ start := 0, stop := 10, isSilent := false }] 5 5,
       s.stop ≤ s.start) :=
  ⟨le_refl _,
   trim_degenerate_duration_zero [{ start := 0, stop := 10, isSilent := false }]
     5 5 (le_refl _)⟩

/-- Claim C8: `analyzeContent` never propagates a failure: a missing API
key, a failed request, or an unparsable response all yield the fixed
placeholder `fallbackResult`, whose `tags` are exactly
`["error", "offline"]` and whose `viralScore` is `0`; being an
`AiAnalysisResult`, the placeholder has the same shape as a successful
analysis. -/
theorem analyzeContent_failure_placeholder :
    (∀ (req : Except String String) (parse : String → Option AiAnalysisResult),
        analyzeContent none req parse = fallbackResult) ∧
    (∀ (key e : String) (parse : String → Option AiAnalysisResult),
        analyzeContent (some key) (Except.error e) parse = fallbackResult) ∧
    (∀ (key text : String) (parse : String → Option AiAnalysisResult),
        parse text = none →
        analyzeContent (some key) (Except.ok text) parse = fallbackResult) ∧
    fallbackResult.tags = ["error", "offline"] ∧
    fallbackResult.viralScore = 0 := by
  refine ⟨fun _ _ => rfl, fun _ _ _ => rfl, ?_, rfl, rfl⟩
  intro key text parse hp
  simp [analyzeContent, hp]

/-- Witness for C8 at a concrete input. -/
theorem analyzeContent_failure_placeholder_witness :
    analyzeContent (some "key") (Except.ok "not json") (fun _ => none) =
      fallbackResult :=
  analyzeContent_failure_placeholder.2.2.1 "key" "not json" (fun _ => none) rfl

/-- `generateFfmpegScript` always produces script text: the rendered script
begins with the dialect header and is never the empty string, for every
input and every format. -/
theorem generateFfmpegScript_ne_empty (segments : List AudioSegment)
    (filename : String) (platform : Platform) (config : ScriptConfig) :
    generateFfmpegScript segments filename platform config ≠ "" := by
  intro h
  have h2 := congrArg String.length h
  cases platform
  case win =>
    simp only [generateFfmpegScript, String.length_append, String.length_empty] at h2
    have h3 : ("@echo off\n" : String).length = 10 := by decide
    rw [h3] at h2
    omega
  case unix =>
    simp only [generateFfmpegScript, String.length_append, String.length_empty] at h2
    have h3 : ("#!/bin/bash\n\n" : String).length = 13 := by decide
    rw [h3] at h2
    omega

/-- Counterexample to claim C5 as stated: there is no codec table and no
configuration-error path in `generateFfmpegScript`.  The format `mp4` is
named in none of the codec branches, yet codec selection silently yields
the default pair `("libx264", "aac")` and a full script is still produced
(the output is not empty). -/
theorem codec_table_error_counterexample :
    selectCodecs ExportFormat.mp4 = ("libx264", "aac") ∧
    generateFfmpegScript [{ start := 0, stop := 10, isSilent := false }]
        "video.mp4" Platform.unix
        { format := ExportFormat.mp4, trimStart := 0, trimEnd := 10,
          bgMusicName := none } ≠ "" :=
  ⟨rfl, generateFfmpegScript_ne_empty _ _ _ _⟩

/-- Claim C5 (amended): script generation is total over `ExportFormat` and
never reports a configuration error — for every requested format it
produces nonempty script text, and a format matched by no explicit codec
branch (such as `mp4`) silently falls back to the default codec pair
`("libx264", "aac")`. -/
theorem generateFfmpegScript_total_defaults :
    (∀ (segments : List AudioSegment) (filename : String) (platform : Platform)
        (config : ScriptConfig),
      generateFfmpegScript segments filename platform config ≠ "") ∧
    selectCodecs ExportFormat.mp4 = ("libx264", "aac") ∧
    (∀ f : ExportFormat, isAudioOnlyFmt f = false →
      f ≠ ExportFormat.avi → f ≠ ExportFormat.mov →
      selectCodecs f = ("libx264", "aac")) := by
  refine ⟨generateFfmpegScript_ne_empty, rfl, ?_⟩
  intro f h1 h2 h3
  simp [selectCodecs, h1, h2, h3]

/-- Claim C6 (evaluated at the failing input): for the windows dialect with
an audio-only format the concat manifest does not list the filenames the
extract commands write — the extract command for segment `0` of an `mp3`
export writes `part_0000.mp3`, but the manifest line is hard-coded to
`part_0000.mp4`.  The unix dialect lists exactly the extract filenames. -/
theorem win_manifest_extension_mismatch :
    segFileName (isAudioOnlyFmt ExportFormat.mp3) (formatExt ExportFormat.mp3) 0 =
      "part_0000.mp3" ∧
    manifestName Platform.win (isAudioOnlyFmt ExportFormat.mp3)
      (formatExt ExportFormat.mp3) 0 = "part_0000.mp4" ∧
    manifestName Platform.win (isAudioOnlyFmt ExportFormat.mp3)
        (formatExt ExportFormat.mp3) 0 ≠
      segFileName (isAudioOnlyFmt ExportFormat.mp3) (formatExt ExportFormat.mp3) 0 ∧
    (∀ (audioOnly : Bool) (ext : String) (i : ℕ),
      manifestName Platform.unix audioOnly ext i = segFileName audioOnly ext i) :=
  ⟨rfl, rfl, by decide, fun _ _ _ => rfl⟩

theorem toFixed4_zero : toFixed4 0 = "0.0000" := by
  have h : round ((0 : ℚ) * 10000) = 0 := by norm_num
  simp only [toFixed4]
  rw [h]
  rfl

/-- Claim C10: in the trim filter of `generateFfmpegScript` a non-silent
segment is discarded only under the strict comparisons
`end < trimStart` or `start > trimEnd`; a segment whose `end` equals
`trimStart` (or whose `start` equals `trimEnd`) is therefore retained,
clamped to a zero-length interval, and the extract command emitted for it
carries the duration string `0.0000`. -/
theorem trim_boundary_zero_length_retained (segs : List AudioSegment)
    (tS tE : ℚ) (s : AudioSegment) (hns : s.isSilent = false) :
    (trimKeep tS tE s = true ↔ ¬(s.stop < tS ∨ tE < s.start)) ∧
    (s.stop = tS → s.start ≤ s.stop → tS ≤ tE →
      trimKeep tS tE s = true ∧
      clampSeg tS tE s = { start := tS, stop := tS, isSilent := false } ∧
      toFixed4 ((clampSeg tS tE s).stop - (clampSeg tS tE s).start) = "0.0000" ∧
      (s ∈ segs → clampSeg tS tE s ∈ activeSegments segs tS tE)) ∧
    (s.start = tE → tS ≤ s.start → s.start ≤ s.stop →
      trimKeep tS tE s = true ∧
      clampSeg tS tE s = { start := tE, stop := tE, isSilent := false } ∧
      toFixed4 ((clampSeg tS tE s).stop - (clampSeg tS tE s).start) = "0.0000") := by
  have hkeep : trimKeep tS tE s = true ↔ ¬(s.stop < tS ∨ tE < s.start) := by
    simp only [trimKeep, hns, Bool.false_eq_true, if_false]
    split_ifs with hcond
    · simp [hcond]
    · simp [hcond]
  refine ⟨hkeep, ?_, ?_⟩
  · intro hstop hnn hte
    have hk : trimKeep tS tE s = true := by
      rw [hkeep]
      push_neg
      constructor
      · rw [hstop]
      · linarith [hnn, hte, hstop.le, hstop.ge]
    have hcl : clampSeg tS tE s = { start := tS, stop := tS, isSilent := false } := by
      simp only [clampSeg]
      congr 1
      · exact max_eq_right (by linarith [hstop ▸ hnn])
      · rw [hstop]
        exact min_eq_left hte
    refine ⟨hk, hcl, ?_, ?_⟩
    · rw [hcl]
      simpa using toFixed4_zero
    · intro hmem
      exact List.mem_map_of_mem _ (List.mem_filter.mpr ⟨hmem, hk⟩)
  · intro hstart htSle hnn
    have hk : trimKeep tS tE s = true := by
      rw [hkeep]
      push_neg
      constructor
      · linarith [htSle, hnn]
      · rw [hstart]
    have hcl : clampSeg tS tE s = { start := tE, stop := tE, isSilent := false } := by
      simp only [clampSeg]
      congr 1
      · rw [hstart]
        exact max_eq_left (hstart ▸ htSle)
      · exact min_eq_right (by linarith [hstart ▸ hnn])
    refine ⟨hk, hcl, ?_⟩
    rw [hcl]
    simpa using toFixed4_zero

/-- Witness for C10 at a concrete input. -/
theorem trim_boundary_zero_length_retained_witness :
    ({ start := 0, stop := 5, isSilent := false } : AudioSegment).isSilent = false ∧
    ((trimKeep 5 10 { start := 0, stop := 5, isSilent := false } = true ↔
        ¬(({ start := 0, stop := 5, isSilent := false } : AudioSegment).stop < 5 ∨
          (10 : ℚ) < ({ start := 0, stop := 5, isSilent := false } : AudioSegment).start)) ∧
    (({ start := 0, stop := 5, isSilent := false } : AudioSegment).stop = 5 →
      ({ start := 0, stop := 5, isSilent := false } : AudioSegment).start ≤
        ({ start := 0, stop := 5, isSilent := false } : AudioSegment).stop →
      (5 : ℚ) ≤ 10 →
      trimKeep 5 10 { start := 0, stop := 5, isSilent := false } = true ∧
      clampSeg 5 10 { start := 0, stop := 5, isSilent := false } =
        { start := 5, stop := 5, isSilent := false } ∧
      toFixed4 ((clampSeg 5 10 { start := 0, stop := 5, isSilent := false }).stop -
        (clampSeg 5 10 { start := 0, stop := 5, isSilent := false }).start) = "0.0000" ∧
      (({ start := 0, stop := 5, isSilent := false } : AudioSegment) ∈
          [({ start := 0, stop := 5, isSilent := false } : AudioSegment)] →
        clampSeg 5 10 { start := 0, stop := 5, isSilent := false } ∈
          activeSegments [{ start := 0, stop := 5, isSilent := false }] 5 10)) ∧
    (({ start := 0, stop := 5, isSilent := false } : AudioSegment).start = 10 →
      (5 : ℚ) ≤ ({ start := 0, stop := 5, isSilent := false } : AudioSegment).start →
      ({ start := 0, stop := 5, isSilent := false } : AudioSegment).start ≤
        ({ start := 0, stop := 5, isSilent := false } : AudioSegment).stop →
      trimKeep 5 10 { start := 0, stop := 5, isSilent := false } = true ∧
      clampSeg 5 10 { start := 0, stop := 5, isSilent := false } =
        { start := 10, stop := 10, isSilent := false } ∧
      toFixed4 ((clampSeg 5 10 { start := 0, stop := 5, isSilent := false }).stop -
        (clampSeg 5 10 { start := 0, stop := 5, isSilent := false }).start) = "0.0000")) :=
  ⟨rfl, trim_boundary_zero_length_retained
    [{ start := 0, stop := 5, isSilent := false }] 5 10
    { start := 0, stop := 5, isSilent := false } rfl⟩
